import Mathlib

/-
Verification development for the pachyderm worker job chain, the fileset tar
path helpers, and the auth server's OIDC ID-token validation.

Part 1 models the fileset helpers `CleanTarPath` / `IsCleanTarPath`
(src/unnamed/part_000) at the level of character lists: Go's
`strings.Trim(x, "/")` removes every leading and every trailing '/' character,
and `strings.HasSuffix(y, "/")` tests the last character.

Part 2 models `validateIDToken` (src/src/server/auth/server/oidc.go).

Part 3 is a model of the job chain (`package chain`), whose implementation is
exercised by the tests in src/unnamed/part_001.
-/

namespace TarPath

/-- Character test used by the model of a Go cutset of "/". -/
def isSlash (c : Char) : Bool := c == '/'

/-- Model of the leading half of Go `strings.Trim(x, "/")`: remove every
leading '/' character. -/
def dropLead (l : List Char) : List Char := l.dropWhile isSlash

/-- Model of the trailing half of Go `strings.Trim(x, "/")`: remove every
trailing '/' character.  `dropTrail rest = []` means `rest` consisted solely of
slashes, so the head character survives exactly when it is not a slash. -/
def dropTrail : List Char → List Char
  | [] => []
  | c :: rest =>
    match dropTrail rest with
    | [] => if isSlash c then [] else [c]
    | r => c :: r

/-- Model of Go `strings.Trim(x, "/")`. -/
def goTrimSlash (s : String) : String := ⟨dropTrail (dropLead s.data)⟩

/-- Model of Go `strings.HasSuffix(s, "/")`. -/
def goHasSuffixSlash (s : String) : Bool :=
  match s.data.getLast? with
  | some c => isSlash c
  | none => false

/-- CleanTarPath ensures that the path is in the canonical format for tar
header names (translated from `CleanTarPath` in src/unnamed/part_000):
`y := "/" + strings.Trim(x, "/")`, and if `isDir` and `y` does not already end
in a slash, a trailing slash is appended. -/
def CleanTarPath (x : String) (isDir : Bool) : String :=
  let y : String := ⟨'/' :: (goTrimSlash x).data⟩
  if isDir && !(goHasSuffixSlash y) then ⟨y.data ++ ['/']⟩ else y

/-- IsCleanTarPath determines if the path is a valid tar path (translated from
`IsCleanTarPath` in src/unnamed/part_000): `CleanTarPath x isDir == x`. -/
def IsCleanTarPath (x : String) (isDir : Bool) : Bool :=
  CleanTarPath x isDir == x

end TarPath

namespace OIDC

/-- Claims carried by an OIDC ID token that the server inspects (struct
`IDTokenClaims` in oidc.go). -/
structure IDTokenClaims where
  email : String
  emailVerified : Bool
  groups : List String
deriving DecidableEq

/-- Modelled from the spec: the repository's error helper package
(src/client/pkg/errors, not included under src/) mirrors the pkg/errors
convention, under which `Wrapf(err, ...)` returns nil when `err` is nil and
otherwise annotates the error with the message.  Go error values are modelled
as `Option String`, with `none` for nil. -/
def wrapf (e : Option String) (msg : String) : Option String :=
  match e with
  | none => none
  | some s => some (msg ++ ": " ++ s)

/-- Shallow embedding of `validateIDToken` (oidc.go lines 376-392).  The two
external calls are abstracted by their outcomes: `verifyResult` is the result
of `verifier.Verify` (the token itself is irrelevant, kept as `Unit`), and
`claimsResult` the result of `idToken.Claims`.  The final guard translates
`if !claims.EmailVerified && !o.IgnoreEmailVerified`; note that the `err`
wrapped there is the function-scoped error from `verifier.Verify`, which is
nil on that path, so the model wraps `none`. -/
def validateIDToken (verifyResult : Except String Unit)
    (claimsResult : Except String IDTokenClaims) (ignoreEmailVerified : Bool) :
    Option Unit × Option IDTokenClaims × Option String :=
  match verifyResult with
  | .error e => (none, none, wrapf (some e) "could not verify token")
  | .ok tok =>
    match claimsResult with
    | .error e => (none, none, wrapf (some e) "could not get claims")
    | .ok claims =>
      if !claims.emailVerified && !ignoreEmailVerified then
        (none, none, wrapf none "email_verified claim was false")
      else
        (some tok, some claims, none)

end OIDC

namespace Chain

/-- Modelled from the spec: datums are identified by a stable content hash;
following section 8 of the spec ("letters are datum names whose hash equals
the name") hashes are plain strings and the hasher is the identity on names. -/
abbrev Datum := String

/-- A datum set is an unordered set of datum hashes (spec section 3). -/
abbrev DatumSet := Finset Datum

/-- Modelled from the spec: one job record of the chain (spec section 3).  The
chain implementation itself (package chain) is not under src/; only its test
file is, so the record is reconstructed from the spec's data model.  The spec's
`yielded` set ("remaining work already handed out, together with datums covered
by ancestors") is split here into `yielded` (hashes handed out by `Next`) and
`covered` (hashes the job relies on an ancestor or the base to have produced);
`trace` is the ghost list of hashes handed out by `Next`, in order. -/
structure JobRec where
  inputs : List Datum
  allDatums : DatumSet
  yielding : DatumSet
  yielded : DatumSet
  covered : DatumSet
  ancestors : Finset Nat
  additiveOnly : Bool
  finished : Bool
  successDatums : Option DatumSet
  trace : List Datum
deriving DecidableEq

instance : Inhabited JobRec :=
  ⟨⟨[], ∅, ∅, ∅, ∅, ∅, false, false, none, []⟩⟩

/-- Modelled from the spec: the chain is the ordered list of job records in
admission order; index 0 is a sentinel record standing for the base datum set
fixed at chain initialization (spec section 3). -/
structure JobChain where
  jobs : List JobRec
deriving DecidableEq

/-- Error kinds of the chain operations (spec section 7). -/
inductive ChainErr where
  | notInitDone
  | unknownJob
  | alreadyFinished
  | itemsRemaining
  | invalidRecovered
deriving DecidableEq

/-- Result of one call to the iterator's `Next` (spec section 4.4): a datum is
handed out, end of stream, cancellation fired while waiting, or the call would
block (waiting on an ancestor with an unfired cancellation token). -/
inductive NextRes where
  | yield (h : Datum)
  | eos
  | canceled
  | blocked
deriving DecidableEq

/-- The job record stored at index `j`, or a default for an out-of-range
index. -/
def jobAt (c : JobChain) (j : Nat) : JobRec := (c.jobs[j]?).getD default

/-- Modelled from the spec: chain initialization fixes the base datum set; the
base is represented as a finished-succeeded sentinel job covering exactly the
base datums (spec sections 3 and 4.1). -/
def baseSentinel (base : DatumSet) : JobRec :=
  { inputs := [], allDatums := base, yielding := ∅, yielded := ∅,
    covered := base, ancestors := ∅, additiveOnly := true, finished := true,
    successDatums := some base, trace := [] }

def mkChain (base : DatumSet) : JobChain :=
  ⟨[baseSentinel base]⟩

/-- Indices of the live (unfinished) jobs of the chain. -/
def liveIdx (c : JobChain) : Finset Nat :=
  (Finset.range c.jobs.length).filter fun i => (jobAt c i).finished = false

/-- Modelled from the spec: admission of a new job (`Start`, spec section 4.1,
reconciled with the admission scenarios of spec section 8).  The job's datum
set is compared against its parent (the youngest prior job, or the base
sentinel): an additive-only job (parent's datums all included) needs to process
only the delta and counts the shared datums as covered by the parent, tracking
the parent as ancestor while it is live; any other job must process its entire
datum set itself and tracks every live prior job as ancestor. -/
def newJobOf (c : JobChain) (inputs : List Datum) : JobRec :=
  let all := inputs.toFinset
  let pIdx := c.jobs.length - 1
  let parent := jobAt c pIdx
  if parent.allDatums ⊆ all then
    { inputs := inputs, allDatums := all,
      yielding := all \ parent.allDatums, yielded := ∅,
      covered := all ∩ parent.allDatums,
      ancestors := if parent.finished then ∅ else {pIdx},
      additiveOnly := true, finished := false, successDatums := none,
      trace := [] }
  else
    { inputs := inputs, allDatums := all,
      yielding := all, yielded := ∅, covered := ∅,
      ancestors := liveIdx c,
      additiveOnly := false, finished := false, successDatums := none,
      trace := [] }

def startJob (c : JobChain) (inputs : List Datum) : JobChain :=
  ⟨c.jobs ++ [newJobOf c inputs]⟩

/-- Apply `f` to every job record, passing each record's index (starting at
`n`). -/
def updFrom (f : Nat → JobRec → JobRec) : Nat → List JobRec → List JobRec
  | _, [] => []
  | n, r :: rest => f n r :: updFrom f (n + 1) rest

/-- Replace the record at index `j`. -/
def setJob (c : JobChain) (j : Nat) (jr : JobRec) : JobChain :=
  ⟨updFrom (fun i r => if i = j then jr else r) 0 c.jobs⟩

/-- Modelled from the spec: the hashes of job `jr` whose ancestor constraints
currently permit yielding — hashes in `yielding` shared with no live ancestor
(spec section 4.2: shared datums are deferred until the ancestor finishes). -/
def availOf (c : JobChain) (jr : JobRec) : DatumSet :=
  jr.yielding.filter fun h => ∀ a ∈ jr.ancestors, h ∉ (jobAt c a).allDatums

/-- Modelled from the spec: one call of the iterator's `Next` (spec section
4.4).  With a finished job the iterator reports end of stream.  Otherwise, if
some hash is currently yieldable, the one with the smallest position in the
job's declared input order moves from `yielding` to `yielded` and is handed
out — even when the cancellation token has fired, since the call does not need
to block (the token is checked before blocking; see
`requireIteratorContentsNonBlocking` and `superviseTestJobWithError` in
src/unnamed/part_001).  With nothing yieldable the call reports end of stream
when no live ancestor remains, and otherwise blocks, returning Canceled if the
cancellation token has fired. -/
def nextOp (c : JobChain) (j : Nat) (cancel : Bool) : NextRes × JobChain :=
  if j < c.jobs.length then
    let jr := jobAt c j
    if jr.finished then (.eos, c)
    else if availOf c jr = ∅ then
      if jr.ancestors = ∅ then (.eos, c)
      else if cancel then (.canceled, c) else (.blocked, c)
    else
      match jr.inputs.find? (fun d => decide (d ∈ availOf c jr)) with
      | some h =>
        (.yield h,
         setJob c j
           { jr with yielding := jr.yielding.erase h,
                     yielded := insert h jr.yielded,
                     trace := jr.trace ++ [h] })
      | none => (.blocked, c)
  else (.eos, c)

/-- Snapshot count of currently yieldable hashes (`NumAvailable`, spec section
4.4). -/
def numAvailable (c : JobChain) (j : Nat) : Nat := (availOf c (jobAt c j)).card

/-- Modelled from the spec: the per-record effect of `Succeed j recovered`
(spec sections 4.2 and 4.3).  The succeeding record is marked finished with
`successDatums = allDatums \ recovered`.  Every live descendant tracking `j`
as an ancestor moves its ancestor-covered datums that `j` reports as recovered
back into `yielding` (they were not actually produced) and drops `j` from its
ancestors. -/
def propagateSucceed (j : Nat) (recovered : DatumSet) (i : Nat) (r : JobRec) :
    JobRec :=
  if i = j then
    { r with finished := true, successDatums := some (r.allDatums \ recovered) }
  else if r.finished = false ∧ j ∈ r.ancestors then
    { r with yielding := r.yielding ∪ (r.covered ∩ recovered),
             covered := r.covered \ (r.covered ∩ recovered),
             ancestors := r.ancestors.erase j }
  else r

/-- The chain after a successful `Succeed j recovered`. -/
def succeedApply (c : JobChain) (j : Nat) (recovered : DatumSet) : JobChain :=
  ⟨updFrom (propagateSucceed j recovered) 0 c.jobs⟩

/-- Modelled from the spec: `Succeed` (spec section 4.3).  Requires a known,
unfinished job whose remaining work has been fully handed out (`yielding`
empty, equivalently handed-out plus ancestor-covered datums exhaust
`allDatums`), else ItemsRemaining; requires `recovered ⊆ allDatums`, else
InvalidRecovered. -/
def succeedOp (c : JobChain) (j : Nat) (recovered : DatumSet) :
    Except ChainErr JobChain :=
  if j < c.jobs.length then
    if (jobAt c j).finished then .error .alreadyFinished
    else if (jobAt c j).yielding ≠ ∅ ∨
        (jobAt c j).yielded ∪ (jobAt c j).covered ≠ (jobAt c j).allDatums then
      .error .itemsRemaining
    else if ¬ recovered ⊆ (jobAt c j).allDatums then .error .invalidRecovered
    else .ok (succeedApply c j recovered)
  else .error .unknownJob

/-- Modelled from the spec: the per-record effect of `Fail j` (spec sections
4.2 and 4.3, reconciled with the cascade-fail scenario of spec section 8).
The failing record is marked finished with no success datums and its pending
work is abandoned.  Every live descendant tracking `j` as an ancestor takes
over the part of `j`'s own work (`selfWork`, what `j` was to produce itself —
not datums `j` in turn relied on older successful ancestors for) that it had
counted as covered, drops `j`, and inherits `j`'s remaining live ancestors. -/
def propagateFail (j : Nat) (selfWork : DatumSet) (ancJ : Finset Nat) (i : Nat)
    (r : JobRec) : JobRec :=
  if i = j then { r with finished := true, successDatums := none, yielding := ∅ }
  else if r.finished = false ∧ j ∈ r.ancestors then
    { r with yielding := r.yielding ∪ (r.covered ∩ selfWork),
             covered := r.covered \ (r.covered ∩ selfWork),
             ancestors := (r.ancestors.erase j) ∪ ancJ }
  else r

/-- The chain after a successful `Fail j`. -/
def failApply (c : JobChain) (j : Nat) : JobChain :=
  ⟨updFrom
     (propagateFail j ((jobAt c j).yielding ∪ (jobAt c j).yielded)
        (jobAt c j).ancestors)
     0 c.jobs⟩

/-- Modelled from the spec: `Fail` (spec section 4.3).  Legal at any point on
a known unfinished job, even before the iterator is drained. -/
def failOp (c : JobChain) (j : Nat) : Except ChainErr JobChain :=
  if j < c.jobs.length then
    if (jobAt c j).finished then .error .alreadyFinished
    else .ok (failApply c j)
  else .error .unknownJob

/-- Commands driving the chain: job admission, one iterator step (with the
state of the caller's cancellation token), success, failure. -/
inductive Cmd where
  | start (inputs : List Datum)
  | next (j : Nat) (cancel : Bool)
  | succeed (j : Nat) (recovered : DatumSet)
  | fail (j : Nat)
deriving DecidableEq

/-- Apply one command; a rejected `succeed`/`fail` leaves the chain
unchanged. -/
def applyCmd (c : JobChain) : Cmd → JobChain
  | .start inputs => startJob c inputs
  | .next j cancel => (nextOp c j cancel).2
  | .succeed j recovered =>
    match succeedOp c j recovered with
    | .ok c' => c'
    | .error _ => c
  | .fail j =>
    match failOp c j with
    | .ok c' => c'
    | .error _ => c

/-- Run a command list from a chain state. -/
def runCmds (c : JobChain) (cmds : List Cmd) : JobChain := cmds.foldl applyCmd c

/-- A failed job: finished with no success datums. -/
def Failed (jr : JobRec) : Prop := jr.finished = true ∧ jr.successDatums = none

/-- Well-formedness of one job record: the three datum sets are pairwise
disjoint; unless the job failed they partition `allDatums`; a
finished-succeeded job has handed out all its remaining work; and the ghost
trace lists each hash of `yielded` exactly once. -/
def JobOK (jr : JobRec) : Prop :=
  Disjoint jr.yielding jr.yielded ∧
  Disjoint jr.covered (jr.yielding ∪ jr.yielded) ∧
  (¬ Failed jr → jr.yielding ∪ jr.yielded ∪ jr.covered = jr.allDatums) ∧
  (jr.finished = true → jr.successDatums ≠ none → jr.yielding = ∅) ∧
  jr.trace.Nodup ∧ jr.trace.toFinset = jr.yielded

/-- Well-formedness of every record of the chain. -/
def ChainOK (c : JobChain) : Prop :=
  ∀ (i : Nat) (jr : JobRec), c.jobs[i]? = some jr → JobOK jr

end Chain

namespace Chain

theorem updFrom_getElem? (f : Nat → JobRec → JobRec) (n : Nat) (l : List JobRec)
    (i : Nat) : (updFrom f n l)[i]? = (l[i]?).map (f (n + i)) := by
  induction l generalizing n i with
  | nil => simp [updFrom]
  | cons r rest ih =>
    cases i with
    | zero =>
      show (f n r :: updFrom f (n + 1) rest)[0]? = ((r :: rest)[0]?).map (f (n + 0))
      simp
    | succ k =>
      show (f n r :: updFrom f (n + 1) rest)[k + 1]? =
        ((r :: rest)[k + 1]?).map (f (n + (k + 1)))
      rw [List.getElem?_cons_succ, List.getElem?_cons_succ, ih (n + 1) k]
      have h1 : n + 1 + k = n + (k + 1) := by omega
      rw [h1]

theorem updFrom_length (f : Nat → JobRec → JobRec) (n : Nat) (l : List JobRec) :
    (updFrom f n l).length = l.length := by
  induction l generalizing n with
  | nil => rfl
  | cons r rest ih => simp [updFrom, ih]

theorem jobAt_of_lt (c : JobChain) (j : Nat) (h : j < c.jobs.length) :
    c.jobs[j]? = some (jobAt c j) := by
  simp [jobAt, List.getElem?_eq_getElem h]

theorem jobAt_some (c : JobChain) (j : Nat) (jr : JobRec)
    (h : c.jobs[j]? = some jr) : jobAt c j = jr := by
  simp [jobAt, h]

theorem nextOp_of_finished (c : JobChain) (j : Nat) (cancel : Bool)
    (hlen : j < c.jobs.length) (hfin : (jobAt c j).finished = true) :
    nextOp c j cancel = (.eos, c) := by
  simp [nextOp, hlen, hfin]

theorem nextOp_eos_drained (c : JobChain) (j : Nat) (cancel : Bool)
    (hlen : j < c.jobs.length) (hfin : (jobAt c j).finished = false)
    (hav : availOf c (jobAt c j) = ∅) (hanc : (jobAt c j).ancestors = ∅) :
    nextOp c j cancel = (.eos, c) := by
  simp [nextOp, hlen, hfin, hav, hanc]

theorem nextOp_canceled (c : JobChain) (j : Nat)
    (hlen : j < c.jobs.length) (hfin : (jobAt c j).finished = false)
    (hav : availOf c (jobAt c j) = ∅) (hanc : (jobAt c j).ancestors ≠ ∅) :
    nextOp c j true = (.canceled, c) := by
  simp [nextOp, hlen, hfin, hav, hanc]

theorem nextOp_blocked (c : JobChain) (j : Nat)
    (hlen : j < c.jobs.length) (hfin : (jobAt c j).finished = false)
    (hav : availOf c (jobAt c j) = ∅) (hanc : (jobAt c j).ancestors ≠ ∅) :
    nextOp c j false = (.blocked, c) := by
  simp [nextOp, hlen, hfin, hav, hanc]

theorem nextOp_yield (c : JobChain) (j : Nat) (cancel : Bool) (h : Datum)
    (hlen : j < c.jobs.length) (hfin : (jobAt c j).finished = false)
    (hav : availOf c (jobAt c j) ≠ ∅)
    (hfind : (jobAt c j).inputs.find?
      (fun d => decide (d ∈ availOf c (jobAt c j))) = some h) :
    nextOp c j cancel =
      (.yield h,
       setJob c j
         { jobAt c j with
             yielding := (jobAt c j).yielding.erase h,
             yielded := insert h (jobAt c j).yielded,
             trace := (jobAt c j).trace ++ [h] }) := by
  simp [nextOp, hlen, hfin, hav, hfind]

end Chain

namespace Chain

theorem jobOK_move (r : JobRec) (m : DatumSet) (A : Finset Nat)
    (hOK : JobOK r) (hm : m ⊆ r.covered) (hf : r.finished = false) :
    JobOK { r with yielding := r.yielding ∪ m, covered := r.covered \ m,
                   ancestors := A } := by
  obtain ⟨h1, h2, h3, h4, h5, h6⟩ := hOK
  refine ⟨?_, ?_, ?_, ?_, h5, h6⟩
  · rw [Finset.disjoint_left]
    intro x hx hy
    rcases Finset.mem_union.mp hx with h | h
    · exact (Finset.disjoint_left.mp h1 h) hy
    · exact (Finset.disjoint_left.mp h2 (hm h)) (Finset.mem_union.mpr (Or.inr hy))
  · rw [Finset.disjoint_left]
    intro x hx hmem
    obtain ⟨hxc, hxm⟩ := Finset.mem_sdiff.mp hx
    rcases Finset.mem_union.mp hmem with h | h
    · rcases Finset.mem_union.mp h with h | h
      · exact (Finset.disjoint_left.mp h2 hxc) (Finset.mem_union.mpr (Or.inl h))
      · exact hxm h
    · exact (Finset.disjoint_left.mp h2 hxc) (Finset.mem_union.mpr (Or.inr h))
  · intro _
    have hall := h3 (by simp [Failed, hf])
    ext x
    have hx := Finset.ext_iff.mp hall x
    simp only [Finset.mem_union, Finset.mem_sdiff] at hx ⊢
    have hmx : x ∈ m → x ∈ r.covered := fun h => hm h
    tauto
  · intro hfin
    simp only [hf] at hfin
    exact absurd hfin (by simp)

theorem jobOK_yield (r : JobRec) (h : Datum)
    (hOK : JobOK r) (hmem : h ∈ r.yielding) :
    JobOK { r with yielding := r.yielding.erase h,
                   yielded := insert h r.yielded,
                   trace := r.trace ++ [h] } := by
  obtain ⟨h1, h2, h3, h4, h5, h6⟩ := hOK
  have hnotyld : h ∉ r.yielded := Finset.disjoint_left.mp h1 hmem
  refine ⟨?_, ?_, ?_, ?_, ?_, ?_⟩
  · rw [Finset.disjoint_left]
    intro x hx hy
    obtain ⟨hxh, hxy⟩ := Finset.mem_erase.mp hx
    rcases Finset.mem_insert.mp hy with h' | h'
    · exact hxh h'
    · exact (Finset.disjoint_left.mp h1 hxy) h'
  · rw [Finset.disjoint_left]
    intro x hx hmem'
    rcases Finset.mem_union.mp hmem' with h' | h'
    · exact (Finset.disjoint_left.mp h2 hx)
        (Finset.mem_union.mpr (Or.inl (Finset.mem_erase.mp h').2))
    · rcases Finset.mem_insert.mp h' with h' | h'
      · exact (Finset.disjoint_left.mp h2 hx)
          (Finset.mem_union.mpr (Or.inl (h' ▸ hmem)))
      · exact (Finset.disjoint_left.mp h2 hx) (Finset.mem_union.mpr (Or.inr h'))
  · intro hnf
    have hall := h3 (by simpa [Failed] using hnf)
    ext x
    have hx := Finset.ext_iff.mp hall x
    simp only [Finset.mem_union, Finset.mem_erase, Finset.mem_insert] at hx ⊢
    by_cases hxh : x = h
    · subst hxh; tauto
    · tauto
  · intro hfin hsd
    have hemp := h4 hfin hsd
    rw [hemp] at hmem
    exact absurd hmem (Finset.not_mem_empty h)
  · rw [List.nodup_append]
    refine ⟨h5, List.nodup_singleton h, ?_⟩
    intro x hx hx'
    rw [List.mem_singleton] at hx'
    subst hx'
    exact hnotyld (h6 ▸ List.mem_toFinset.mpr hx)
  · rw [List.toFinset_append]
    rw [h6]
    ext x
    simp only [Finset.mem_union, List.toFinset_cons, List.toFinset_nil,
      Finset.mem_insert, Finset.not_mem_empty, or_false, List.mem_toFinset,
      List.mem_singleton]
    tauto

theorem chainOK_updFrom (c : JobChain) (f : Nat → JobRec → JobRec)
    (h : ChainOK c)
    (hf : ∀ i r, c.jobs[i]? = some r → JobOK r → JobOK (f i r)) :
    ChainOK ⟨updFrom f 0 c.jobs⟩ := by
  intro i x hx
  have : (updFrom f 0 c.jobs)[i]? = (c.jobs[i]?).map (f i) := by
    have := updFrom_getElem? f 0 c.jobs i
    simpa using this
  rw [show (JobChain.mk (updFrom f 0 c.jobs)).jobs = updFrom f 0 c.jobs from rfl] at hx
  rw [this] at hx
  cases hi : c.jobs[i]? with
  | none => rw [hi] at hx; simp at hx
  | some r =>
    rw [hi] at hx
    simp only [Option.map_some'] at hx
    cases hx
    exact hf i r hi (h i r hi)

end Chain

namespace Chain

theorem jobOK_baseSentinel (base : DatumSet) : JobOK (baseSentinel base) := by
  refine ⟨by simp [baseSentinel], by simp [baseSentinel], ?_, fun _ _ => rfl,
    by simp [baseSentinel], by simp [baseSentinel]⟩
  intro _
  simp [baseSentinel]

theorem chainOK_mkChain (base : DatumSet) : ChainOK (mkChain base) := by
  intro i jr h
  rcases i with _ | i
  · have h0 : (mkChain base).jobs[0]? = some (baseSentinel base) := rfl
    rw [h0] at h
    cases h
    exact jobOK_baseSentinel base
  · have h0 : (mkChain base).jobs[i + 1]? = none := rfl
    rw [h0] at h
    cases h

theorem jobOK_newJobOf (c : JobChain) (inputs : List Datum) :
    JobOK (newJobOf c inputs) := by
  simp only [newJobOf]
  by_cases hsub : (jobAt c (c.jobs.length - 1)).allDatums ⊆ inputs.toFinset
  · rw [if_pos hsub]
    refine ⟨by simp, ?_, ?_, ?_, by simp, by simp⟩
    · rw [Finset.disjoint_left]
      intro x hx hy
      simp only [Finset.union_empty, Finset.mem_sdiff] at hy
      exact hy.2 (Finset.mem_inter.mp hx).2
    · intro _
      ext x
      simp only [Finset.mem_union, Finset.mem_sdiff, Finset.mem_inter,
        Finset.not_mem_empty, or_false]
      tauto
    · intro hfin
      exact absurd hfin (by simp)
  · rw [if_neg hsub]
    refine ⟨by simp, by simp, ?_, ?_, by simp, by simp⟩
    · intro _
      simp
    · intro hfin
      exact absurd hfin (by simp)

theorem chainOK_startJob (c : JobChain) (inputs : List Datum)
    (hOK : ChainOK c) : ChainOK (startJob c inputs) := by
  intro i jr h
  rw [show (startJob c inputs).jobs = c.jobs ++ [newJobOf c inputs] from rfl] at h
  rw [List.getElem?_append] at h
  split at h
  · exact hOK i jr h
  · rcases hk : i - c.jobs.length with _ | k
    · rw [hk] at h
      simp only [List.getElem?_cons_zero] at h
      cases h
      exact jobOK_newJobOf c inputs
    · rw [hk] at h
      simp at h

theorem chainOK_nextOp (c : JobChain) (j : Nat) (cancel : Bool)
    (hOK : ChainOK c) : ChainOK (nextOp c j cancel).2 := by
  by_cases hlen : j < c.jobs.length
  · by_cases hfin : (jobAt c j).finished = true
    · rw [nextOp_of_finished c j cancel hlen hfin]
      exact hOK
    · have hfin' : (jobAt c j).finished = false := by
        simpa using hfin
      by_cases hav : availOf c (jobAt c j) = ∅
      · by_cases hanc : (jobAt c j).ancestors = ∅
        · rw [nextOp_eos_drained c j cancel hlen hfin' hav hanc]
          exact hOK
        · cases cancel
          · rw [nextOp_blocked c j hlen hfin' hav hanc]
            exact hOK
          · rw [nextOp_canceled c j hlen hfin' hav hanc]
            exact hOK
      · cases hfind : (jobAt c j).inputs.find?
            (fun d => decide (d ∈ availOf c (jobAt c j))) with
        | none =>
          have heq : nextOp c j cancel = (.blocked, c) := by
            simp [nextOp, hlen, hfin', hav, hfind]
          rw [heq]
          exact hOK
        | some h =>
          rw [nextOp_yield c j cancel h hlen hfin' hav hfind]
          have hmem : h ∈ (jobAt c j).yielding := by
            have hp := List.find?_some hfind
            have hmem' := of_decide_eq_true hp
            exact (Finset.mem_filter.mp hmem').1
          have hjOK : JobOK (jobAt c j) := hOK j _ (jobAt_of_lt c j hlen)
          apply chainOK_updFrom c _ hOK
          intro i r hir hrOK
          by_cases hij : i = j
          · subst hij
            simp only [if_pos rfl]
            exact jobOK_yield _ h hjOK hmem
          · simp only [if_neg hij]
            exact hrOK
  · have heq : nextOp c j cancel = (.eos, c) := by simp [nextOp, hlen]
    rw [heq]
    exact hOK

theorem succeedOp_ok_inv (c : JobChain) (j : Nat) (recovered : DatumSet)
    (c' : JobChain) (h : succeedOp c j recovered = .ok c') :
    j < c.jobs.length ∧ (jobAt c j).finished = false ∧
    (jobAt c j).yielding = ∅ ∧
    (jobAt c j).yielded ∪ (jobAt c j).covered = (jobAt c j).allDatums ∧
    recovered ⊆ (jobAt c j).allDatums ∧ c' = succeedApply c j recovered := by
  by_cases hlen : j < c.jobs.length
  · by_cases hfin : (jobAt c j).finished = true
    · simp [succeedOp, hlen, hfin] at h
    · by_cases hrem : (jobAt c j).yielding ≠ ∅ ∨
          (jobAt c j).yielded ∪ (jobAt c j).covered ≠ (jobAt c j).allDatums
      · simp [succeedOp, hlen, hfin, hrem] at h
      · by_cases hrec : recovered ⊆ (jobAt c j).allDatums
        · have hc' : succeedApply c j recovered = c' := by
            simpa [succeedOp, hlen, hfin, hrem, hrec] using h
          push_neg at hrem
          exact ⟨hlen, by simpa using hfin, hrem.1, hrem.2, hrec, hc'.symm⟩
        · simp [succeedOp, hlen, hfin, hrem, hrec] at h
  · simp [succeedOp, hlen] at h

theorem chainOK_succeedApply (c : JobChain) (j : Nat) (recovered : DatumSet)
    (hOK : ChainOK c)
    (hfin : (jobAt c j).finished = false)
    (hyld : (jobAt c j).yielding = ∅)
    (hcov : (jobAt c j).yielded ∪ (jobAt c j).covered = (jobAt c j).allDatums) :
    ChainOK (succeedApply c j recovered) := by
  apply chainOK_updFrom c _ hOK
  intro i r hir hrOK
  unfold propagateSucceed
  by_cases hij : i = j
  · subst hij
    rw [if_pos rfl]
    have hr := jobAt_some c i r hir
    rw [hr] at hfin hyld hcov
    obtain ⟨h1, h2, h3, h4, h5, h6⟩ := hrOK
    refine ⟨h1, h2, ?_, ?_, h5, h6⟩
    · intro _
      have hall := h3 (by simp [Failed, hfin])
      exact hall
    · intro _ _
      exact hyld
  · rw [if_neg hij]
    by_cases hcond : r.finished = false ∧ j ∈ r.ancestors
    · rw [if_pos hcond]
      exact jobOK_move r (r.covered ∩ recovered) _ hrOK Finset.inter_subset_left
        hcond.1
    · rw [if_neg hcond]
      exact hrOK

theorem failOp_ok_inv (c : JobChain) (j : Nat) (c' : JobChain)
    (h : failOp c j = .ok c') :
    j < c.jobs.length ∧ (jobAt c j).finished = false ∧ c' = failApply c j := by
  by_cases hlen : j < c.jobs.length
  · by_cases hfin : (jobAt c j).finished = true
    · simp [failOp, hlen, hfin] at h
    · have hc' : failApply c j = c' := by
        simpa [failOp, hlen, hfin] using h
      exact ⟨hlen, by simpa using hfin, hc'.symm⟩
  · simp [failOp, hlen] at h

theorem chainOK_failApply (c : JobChain) (j : Nat) (hOK : ChainOK c) :
    ChainOK (failApply c j) := by
  apply chainOK_updFrom c _ hOK
  intro i r hir hrOK
  unfold propagateFail
  by_cases hij : i = j
  · subst hij
    rw [if_pos rfl]
    obtain ⟨h1, h2, h3, h4, h5, h6⟩ := hrOK
    refine ⟨by simp, ?_, ?_, ?_, h5, h6⟩
    · simp only [Finset.empty_union]
      exact h2.mono_right Finset.subset_union_right
    · intro hnf
      exact absurd ⟨rfl, rfl⟩ hnf
    · intro _ hsd
      exact absurd rfl hsd
  · rw [if_neg hij]
    by_cases hcond : r.finished = false ∧ j ∈ r.ancestors
    · rw [if_pos hcond]
      exact jobOK_move r (r.covered ∩ ((jobAt c j).yielding ∪ (jobAt c j).yielded))
        _ hrOK Finset.inter_subset_left hcond.1
    · rw [if_neg hcond]
      exact hrOK

theorem chainOK_applyCmd (c : JobChain) (cmd : Cmd) (hOK : ChainOK c) :
    ChainOK (applyCmd c cmd) := by
  cases cmd with
  | start inputs => exact chainOK_startJob c inputs hOK
  | next j cancel => exact chainOK_nextOp c j cancel hOK
  | succeed j recovered =>
    cases hs : succeedOp c j recovered with
    | error e =>
      have : applyCmd c (Cmd.succeed j recovered) = c := by simp [applyCmd, hs]
      rw [this]
      exact hOK
    | ok c' =>
      obtain ⟨_, hfin, hyld, hcov, _, hc'⟩ := succeedOp_ok_inv c j recovered c' hs
      have : applyCmd c (Cmd.succeed j recovered) = c' := by simp [applyCmd, hs]
      rw [this, hc']
      exact chainOK_succeedApply c j recovered hOK hfin hyld hcov
  | fail j =>
    cases hs : failOp c j with
    | error e =>
      have : applyCmd c (Cmd.fail j) = c := by simp [applyCmd, hs]
      rw [this]
      exact hOK
    | ok c' =>
      obtain ⟨_, _, hc'⟩ := failOp_ok_inv c j c' hs
      have : applyCmd c (Cmd.fail j) = c' := by simp [applyCmd, hs]
      rw [this, hc']
      exact chainOK_failApply c j hOK

theorem chainOK_runCmds (c : JobChain) (cmds : List Cmd) (hOK : ChainOK c) :
    ChainOK (runCmds c cmds) := by
  induction cmds generalizing c with
  | nil => exact hOK
  | cons cmd rest ih => exact ih (applyCmd c cmd) (chainOK_applyCmd c cmd hOK)

end Chain

namespace Chain

theorem updFrom_getElem?_zero (f : Nat → JobRec → JobRec) (l : List JobRec)
    (i : Nat) : (updFrom f 0 l)[i]? = (l[i]?).map (f i) := by
  have := updFrom_getElem? f 0 l i
  simpa using this

theorem newJobOf_finished (c : JobChain) (inputs : List Datum) :
    (newJobOf c inputs).finished = false := by
  simp only [newJobOf]
  split <;> rfl

theorem propagateSucceed_preserves (j : Nat) (recovered : DatumSet) (i : Nat)
    (r : JobRec) (hij : i ≠ j) :
    (propagateSucceed j recovered i r).finished = r.finished ∧
    (propagateSucceed j recovered i r).successDatums = r.successDatums := by
  unfold propagateSucceed
  rw [if_neg hij]
  split
  · exact ⟨rfl, rfl⟩
  · exact ⟨rfl, rfl⟩

theorem propagateFail_preserves (j : Nat) (selfWork : DatumSet)
    (ancJ : Finset Nat) (i : Nat) (r : JobRec) (hij : i ≠ j) :
    (propagateFail j selfWork ancJ i r).finished = r.finished ∧
    (propagateFail j selfWork ancJ i r).successDatums = r.successDatums := by
  unfold propagateFail
  rw [if_neg hij]
  split
  · exact ⟨rfl, rfl⟩
  · exact ⟨rfl, rfl⟩

theorem nextOp_snd (c : JobChain) (j0 : Nat) (cancel : Bool) :
    (nextOp c j0 cancel).2 = c ∨
    ∃ hh : Datum, j0 < c.jobs.length ∧ (jobAt c j0).finished = false ∧
      (nextOp c j0 cancel).2 = setJob c j0
        { jobAt c j0 with
            yielding := (jobAt c j0).yielding.erase hh,
            yielded := insert hh (jobAt c j0).yielded,
            trace := (jobAt c j0).trace ++ [hh] } := by
  by_cases hlen : j0 < c.jobs.length
  · by_cases hfin : (jobAt c j0).finished = true
    · left
      rw [nextOp_of_finished c j0 cancel hlen hfin]
    · have hfin' : (jobAt c j0).finished = false := by simpa using hfin
      by_cases hav : availOf c (jobAt c j0) = ∅
      · by_cases hanc : (jobAt c j0).ancestors = ∅
        · left
          rw [nextOp_eos_drained c j0 cancel hlen hfin' hav hanc]
        · cases cancel
          · left
            rw [nextOp_blocked c j0 hlen hfin' hav hanc]
          · left
            rw [nextOp_canceled c j0 hlen hfin' hav hanc]
      · cases hfind : (jobAt c j0).inputs.find?
            (fun d => decide (d ∈ availOf c (jobAt c j0))) with
        | none =>
          left
          simp [nextOp, hlen, hfin', hav, hfind]
        | some hh =>
          right
          refine ⟨hh, hlen, hfin', ?_⟩
          rw [nextOp_yield c j0 cancel hh hlen hfin' hav hfind]
  · left
    simp [nextOp, hlen]

/-- A job index at which the chain does not hold a failed record. -/
def NotFailedAt (c : JobChain) (j : Nat) : Prop :=
  ∀ jr, c.jobs[j]? = some jr → ¬ Failed jr

theorem notFailedAt_setJob (c : JobChain) (j0 : Nat) (jr' : JobRec) (j : Nat)
    (h : NotFailedAt c j) (hnf : ¬ Failed jr') :
    NotFailedAt (setJob c j0 jr') j := by
  intro jr hjr
  rw [show (setJob c j0 jr').jobs =
      updFrom (fun i r => if i = j0 then jr' else r) 0 c.jobs from rfl] at hjr
  rw [updFrom_getElem?_zero] at hjr
  cases hj : c.jobs[j]? with
  | none =>
    rw [hj] at hjr
    cases hjr
  | some r =>
    rw [hj] at hjr
    simp only [Option.map_some'] at hjr
    cases hjr
    by_cases hjj : j = j0
    · rw [if_pos hjj]
      exact hnf
    · rw [if_neg hjj]
      exact h r hj

theorem notFailedAt_applyCmd (c : JobChain) (j : Nat) (cmd : Cmd)
    (h : NotFailedAt c j) (hne : cmd ≠ Cmd.fail j) :
    NotFailedAt (applyCmd c cmd) j := by
  cases cmd with
  | start inputs =>
    intro jr hjr
    rw [show (applyCmd c (Cmd.start inputs)).jobs =
        c.jobs ++ [newJobOf c inputs] from rfl] at hjr
    rw [List.getElem?_append] at hjr
    split at hjr
    · exact h jr hjr
    · rcases hk : j - c.jobs.length with _ | k
      · rw [hk] at hjr
        simp only [List.getElem?_cons_zero] at hjr
        cases hjr
        intro hF
        have hfin := hF.1
        rw [newJobOf_finished] at hfin
        exact absurd hfin (by simp)
      · rw [hk] at hjr
        simp at hjr
  | next j0 cancel =>
    rcases nextOp_snd c j0 cancel with heq | ⟨hh, hlen, hfin, heq⟩
    · rw [show applyCmd c (Cmd.next j0 cancel) = (nextOp c j0 cancel).2 from rfl,
        heq]
      exact h
    · rw [show applyCmd c (Cmd.next j0 cancel) = (nextOp c j0 cancel).2 from rfl,
        heq]
      apply notFailedAt_setJob c j0 _ j h
      intro hF
      have h1 := hF.1
      simp only [] at h1
      rw [hfin] at h1
      exact absurd h1 (by simp)
  | succeed j0 recovered =>
    cases hs : succeedOp c j0 recovered with
    | error e =>
      rw [show applyCmd c (Cmd.succeed j0 recovered) = c from by
        simp [applyCmd, hs]]
      exact h
    | ok c' =>
      have happ : applyCmd c (Cmd.succeed j0 recovered) = c' := by
        simp [applyCmd, hs]
      obtain ⟨hlen, hfin, hyld, hcov, hrec, hc'⟩ :=
        succeedOp_ok_inv c j0 recovered c' hs
      rw [happ, hc']
      intro jr hjr
      rw [show (succeedApply c j0 recovered).jobs =
          updFrom (propagateSucceed j0 recovered) 0 c.jobs from rfl] at hjr
      rw [updFrom_getElem?_zero] at hjr
      cases hj : c.jobs[j]? with
      | none =>
        rw [hj] at hjr
        cases hjr
      | some r =>
        rw [hj] at hjr
        simp only [Option.map_some'] at hjr
        cases hjr
        by_cases hjj : j = j0
        · subst hjj
          intro hF
          have h2 := hF.2
          unfold propagateSucceed at h2
          rw [if_pos rfl] at h2
          simp at h2
        · intro hF
          obtain ⟨hp1, hp2⟩ := propagateSucceed_preserves j0 recovered j r hjj
          exact h r hj ⟨by rw [← hp1]; exact hF.1, by rw [← hp2]; exact hF.2⟩
  | fail j0 =>
    have hne' : j ≠ j0 := by
      rintro rfl
      exact hne rfl
    cases hs : failOp c j0 with
    | error e =>
      rw [show applyCmd c (Cmd.fail j0) = c from by simp [applyCmd, hs]]
      exact h
    | ok c' =>
      have happ : applyCmd c (Cmd.fail j0) = c' := by simp [applyCmd, hs]
      obtain ⟨hlen, hfin, hc'⟩ := failOp_ok_inv c j0 c' hs
      rw [happ, hc']
      intro jr hjr
      rw [show (failApply c j0).jobs =
          updFrom (propagateFail j0 ((jobAt c j0).yielding ∪ (jobAt c j0).yielded)
            (jobAt c j0).ancestors) 0 c.jobs from rfl] at hjr
      rw [updFrom_getElem?_zero] at hjr
      cases hj : c.jobs[j]? with
      | none =>
        rw [hj] at hjr
        cases hjr
      | some r =>
        rw [hj] at hjr
        simp only [Option.map_some'] at hjr
        cases hjr
        intro hF
        obtain ⟨hp1, hp2⟩ := propagateFail_preserves j0 _ _ j r hne'
        exact h r hj ⟨by rw [← hp1]; exact hF.1, by rw [← hp2]; exact hF.2⟩

theorem notFailedAt_runCmds (c : JobChain) (cmds : List Cmd) (j : Nat)
    (h : NotFailedAt c j) (hn : Cmd.fail j ∉ cmds) :
    NotFailedAt (runCmds c cmds) j := by
  induction cmds generalizing c with
  | nil => exact h
  | cons cmd rest ih =>
    rw [show runCmds c (cmd :: rest) = runCmds (applyCmd c cmd) rest from rfl]
    apply ih (applyCmd c cmd)
    · apply notFailedAt_applyCmd c j cmd h
      intro heq
      exact hn (heq ▸ List.mem_cons_self cmd rest)
    · intro hm
      exact hn (List.mem_cons_of_mem cmd hm)

theorem notFailedAt_mkChain (base : DatumSet) (j : Nat) :
    NotFailedAt (mkChain base) j := by
  intro jr hjr
  rcases j with _ | k
  · have h0 : (mkChain base).jobs[0]? = some (baseSentinel base) := rfl
    rw [h0] at hjr
    cases hjr
    intro hF
    have h2 := hF.2
    simp [baseSentinel] at h2
  · have h0 : (mkChain base).jobs[k + 1]? = none := rfl
    rw [h0] at hjr
    cases hjr

end Chain

namespace Chain

/-- Command list used to witness the C1 theorem: one job over an empty base,
drained by two `Next` calls. -/
def c1wCmds : List Cmd := [Cmd.start ["a", "b"], Cmd.next 1 false, Cmd.next 1 false]

/-- C1: for every job `j` admitted to an initialized chain on which `Fail j`
is never called, the hashes handed out by `j`'s iterator across all `Next`
calls form a duplicate-free list, and once the iterator reports end-of-stream
they are exactly the hashes the job must process itself (its datum set minus
the datums covered by ancestors or the base) — each handed out exactly once. -/
theorem chain_trace_nodup_complete (base : DatumSet) (cmds : List Cmd) (j : Nat)
    (hnf : Cmd.fail j ∉ cmds) :
    (jobAt (runCmds (mkChain base) cmds) j).trace.Nodup ∧
    ((nextOp (runCmds (mkChain base) cmds) j false).1 = NextRes.eos →
      (jobAt (runCmds (mkChain base) cmds) j).trace.toFinset =
        (jobAt (runCmds (mkChain base) cmds) j).allDatums \
          (jobAt (runCmds (mkChain base) cmds) j).covered) := by
  set c := runCmds (mkChain base) cmds with hc
  have hOK : ChainOK c := chainOK_runCmds _ _ (chainOK_mkChain base)
  have hNF : NotFailedAt c j :=
    notFailedAt_runCmds _ _ _ (notFailedAt_mkChain base j) hnf
  by_cases hlen : j < c.jobs.length
  · have hsome : c.jobs[j]? = some (jobAt c j) := jobAt_of_lt c j hlen
    obtain ⟨h1, h2, h3, h4, h5, h6⟩ := hOK j _ hsome
    refine ⟨h5, ?_⟩
    intro heos
    have hnfail : ¬ Failed (jobAt c j) := hNF _ hsome
    have hyld : (jobAt c j).yielding = ∅ := by
      by_cases hfin : (jobAt c j).finished = true
      · refine h4 hfin ?_
        intro hsd
        exact hnfail ⟨hfin, hsd⟩
      · have hfin' : (jobAt c j).finished = false := by simpa using hfin
        by_cases hav : availOf c (jobAt c j) = ∅
        · by_cases hanc : (jobAt c j).ancestors = ∅
          · have havy : availOf c (jobAt c j) = (jobAt c j).yielding := by
              unfold availOf
              rw [hanc]
              simp
            rw [← havy]
            exact hav
          · rw [nextOp_blocked c j hlen hfin' hav hanc] at heos
            simp at heos
        · cases hfind : (jobAt c j).inputs.find?
              (fun d => decide (d ∈ availOf c (jobAt c j))) with
          | none =>
            have heq : nextOp c j false = (.blocked, c) := by
              simp [nextOp, hlen, hfin', hav, hfind]
            rw [heq] at heos
            simp at heos
          | some hh =>
            rw [nextOp_yield c j false hh hlen hfin' hav hfind] at heos
            simp at heos
    rw [h6]
    have hall := h3 hnfail
    rw [hyld] at hall
    simp only [Finset.empty_union] at hall
    have hdisj : Disjoint (jobAt c j).covered (jobAt c j).yielded := by
      have h2' := h2
      rw [hyld] at h2'
      simpa using h2'
    ext x
    simp only [Finset.mem_sdiff]
    constructor
    · intro hx
      refine ⟨?_, ?_⟩
      · rw [← hall]
        exact Finset.mem_union.mpr (Or.inl hx)
      · exact fun hcx => (Finset.disjoint_left.mp hdisj hcx) hx
    · rintro ⟨hx, hxc⟩
      rw [← hall] at hx
      rcases Finset.mem_union.mp hx with hm | hm
      · exact hm
      · exact absurd hm hxc
  · have hnone : c.jobs[j]? = none := by
      rw [List.getElem?_eq_none]
      omega
    have hdef : jobAt c j = default := by simp [jobAt, hnone]
    rw [hdef]
    refine ⟨?_, ?_⟩
    · show ([] : List Datum).Nodup
      simp
    · intro _
      show ([] : List Datum).toFinset = (∅ : DatumSet) \ ∅
      simp

/-- Witness for the C1 theorem at a concrete run: a single job with datums
a, b over an empty base, drained by two `Next` calls. -/
theorem chain_trace_nodup_complete_witness :
    Cmd.fail 1 ∉ c1wCmds ∧
    ((jobAt (runCmds (mkChain ∅) c1wCmds) 1).trace.Nodup ∧
     ((nextOp (runCmds (mkChain ∅) c1wCmds) 1 false).1 = NextRes.eos →
       (jobAt (runCmds (mkChain ∅) c1wCmds) 1).trace.toFinset =
         (jobAt (runCmds (mkChain ∅) c1wCmds) 1).allDatums \
           (jobAt (runCmds (mkChain ∅) c1wCmds) 1).covered)) :=
  ⟨by decide, chain_trace_nodup_complete ∅ c1wCmds 1 (by decide)⟩

end Chain

namespace TarPath

theorem dropLead_head_not_slash (l : List Char) (c : Char)
    (h : (dropLead l).head? = some c) : isSlash c = false := by
  induction l with
  | nil => simp [dropLead] at h
  | cons a t ih =>
    by_cases ha : isSlash a = true
    · rw [show dropLead (a :: t) = dropLead t from by
        simp [dropLead, List.dropWhile_cons, ha]] at h
      exact ih h
    · have ha' : isSlash a = false := by simpa using ha
      rw [show dropLead (a :: t) = a :: t from by
        simp [dropLead, List.dropWhile_cons, ha']] at h
      simp only [List.head?_cons, Option.some.injEq] at h
      rw [← h]
      exact ha'

theorem dropLead_of_head (l : List Char)
    (h : ∀ c, l.head? = some c → isSlash c = false) : dropLead l = l := by
  cases l with
  | nil => rfl
  | cons a t =>
    have ha := h a rfl
    simp [dropLead, List.dropWhile_cons, ha]

theorem dropTrail_getLast_not_slash (l : List Char) (c : Char)
    (h : (dropTrail l).getLast? = some c) : isSlash c = false := by
  induction l with
  | nil => simp [dropTrail] at h
  | cons a t ih =>
    simp only [dropTrail] at h
    rcases hr : dropTrail t with _ | ⟨b, rb⟩
    · rw [hr] at h
      by_cases ha : isSlash a = true
      · simp [ha] at h
      · have ha' : isSlash a = false := by simpa using ha
        simp only [ha', if_false, Bool.false_eq_true] at h
        have h' : ([a]).getLast? = some c := h
        simp only [List.getLast?_singleton, Option.some.injEq] at h'
        rw [← h']
        exact ha'
    · rw [hr] at h
      have h' : (a :: b :: rb).getLast? = some c := h
      rw [List.getLast?_cons_cons] at h'
      rw [← hr] at h'
      exact ih h'

theorem dropTrail_head_cases (l : List Char) :
    dropTrail l = [] ∨ (dropTrail l).head? = l.head? := by
  cases l with
  | nil => exact Or.inl rfl
  | cons a t =>
    simp only [dropTrail]
    rcases hr : dropTrail t with _ | ⟨b, rb⟩
    · by_cases ha : isSlash a = true
      · left
        simp [ha]
      · right
        have ha' : isSlash a = false := by simpa using ha
        simp [ha']
    · right
      rfl

theorem dropTrail_append_slash (l : List Char) :
    dropTrail (l ++ ['/']) = dropTrail l := by
  induction l with
  | nil => rfl
  | cons a t ih =>
    show dropTrail (a :: (t ++ ['/'])) = dropTrail (a :: t)
    simp only [dropTrail, ih]

theorem dropTrail_of_getLast (l : List Char)
    (h : ∀ c, l.getLast? = some c → isSlash c = false) : dropTrail l = l := by
  induction l with
  | nil => rfl
  | cons a t ih =>
    cases t with
    | nil =>
      have ha := h a (by simp)
      simp only [dropTrail]
      simp [ha]
    | cons b t' =>
      have ih' := ih (fun c hc => h c (by rw [List.getLast?_cons_cons]; exact hc))
      rw [dropTrail, ih']

theorem trim_wrapped (t : List Char)
    (hhead : ∀ c, t.head? = some c → isSlash c = false)
    (hlast : ∀ c, t.getLast? = some c → isSlash c = false) :
    dropTrail (dropLead ('/' :: t)) = t := by
  have h1 : dropLead ('/' :: t) = dropLead t := by
    simp [dropLead, List.dropWhile_cons, isSlash]
  rw [h1, dropLead_of_head t hhead, dropTrail_of_getLast t hlast]

theorem trim_wrapped_dir (t : List Char)
    (hhead : ∀ c, t.head? = some c → isSlash c = false)
    (hlast : ∀ c, t.getLast? = some c → isSlash c = false) :
    dropTrail (dropLead (('/' :: t) ++ ['/'])) = t := by
  cases t with
  | nil => rfl
  | cons c t'' =>
    have hc := hhead c rfl
    have h1 : dropLead (('/' :: c :: t'') ++ ['/']) = (c :: t'') ++ ['/'] := by
      show List.dropWhile isSlash ('/' :: (c :: (t'' ++ ['/']))) = c :: (t'' ++ ['/'])
      rw [List.dropWhile_cons]
      simp only [show isSlash '/' = true from rfl, if_true]
      rw [List.dropWhile_cons]
      simp [hc]
    rw [h1, dropTrail_append_slash, dropTrail_of_getLast _ hlast]

theorem hasSuffixSlash_wrapped (t : List Char)
    (hlast : ∀ c, t.getLast? = some c → isSlash c = false) :
    goHasSuffixSlash ⟨'/' :: t⟩ = t.isEmpty := by
  cases t with
  | nil => rfl
  | cons c t'' =>
    rcases hg : (c :: t'').getLast? with _ | cc
    · rw [List.getLast?_eq_none_iff] at hg
      cases hg
    · have hcc := hlast cc hg
      show (match ('/' :: c :: t'').getLast? with
        | some c => isSlash c
        | none => false) = (c :: t'').isEmpty
      rw [List.getLast?_cons_cons, hg]
      simpa using hcc

end TarPath

namespace TarPath

theorem cleanTarPath_eq (x : String) (isDir : Bool) :
    CleanTarPath x isDir =
      if isDir && !(goHasSuffixSlash ⟨'/' :: dropTrail (dropLead x.data)⟩) then
        ⟨('/' :: dropTrail (dropLead x.data)) ++ ['/']⟩
      else ⟨'/' :: dropTrail (dropLead x.data)⟩ := rfl

/-- C10: `CleanTarPath x isDir` always begins with a slash, ends with a slash
whenever `isDir` is true, and is a fixed point of `CleanTarPath`; equivalently
`IsCleanTarPath` holds of every `CleanTarPath` result. -/
theorem cleanTarPath_canonical (x : String) (isDir : Bool) :
    (CleanTarPath x isDir).data.head? = some '/' ∧
    (isDir = true → (CleanTarPath x isDir).data.getLast? = some '/') ∧
    CleanTarPath (CleanTarPath x isDir) isDir = CleanTarPath x isDir ∧
    IsCleanTarPath (CleanTarPath x isDir) isDir = true := by
  obtain ⟨t, ht⟩ : ∃ t, dropTrail (dropLead x.data) = t := ⟨_, rfl⟩
  have hhead : ∀ c, t.head? = some c → isSlash c = false := by
    intro c hc
    rcases dropTrail_head_cases (dropLead x.data) with h0 | h0
    · rw [ht] at h0
      rw [h0] at hc
      simp at hc
    · rw [ht] at h0
      rw [h0] at hc
      exact dropLead_head_not_slash x.data c hc
  have hlast : ∀ c, t.getLast? = some c → isSlash c = false := by
    intro c hc
    rw [← ht] at hc
    exact dropTrail_getLast_not_slash _ c hc
  have hres : CleanTarPath x isDir =
      if isDir && !(goHasSuffixSlash ⟨'/' :: t⟩) then ⟨('/' :: t) ++ ['/']⟩
      else ⟨'/' :: t⟩ := by
    rw [cleanTarPath_eq, ht]
  have hsuf := hasSuffixSlash_wrapped t hlast
  cases t with
  | nil =>
    have hres2 : CleanTarPath x isDir = ⟨['/']⟩ := by
      rw [hres, hsuf]
      simp
    refine ⟨?_, ?_, ?_, ?_⟩
    · rw [hres2]
      rfl
    · intro _
      rw [hres2]
      rfl
    · rw [hres2]
      cases isDir <;> rfl
    · rw [hres2]
      cases isDir <;> decide
  | cons c0 t0 =>
    have hsuf' : goHasSuffixSlash ⟨'/' :: c0 :: t0⟩ = false := by
      rw [hsuf]
      rfl
    cases isDir with
    | false =>
      have hres2 : CleanTarPath x false = ⟨'/' :: c0 :: t0⟩ := by
        rw [hres]
        simp
      have htr : dropTrail (dropLead ('/' :: c0 :: t0)) = c0 :: t0 :=
        trim_wrapped _ hhead hlast
      refine ⟨?_, ?_, ?_, ?_⟩
      · rw [hres2]
        rfl
      · intro h0
        cases h0
      · rw [hres2, cleanTarPath_eq,
          show (⟨'/' :: c0 :: t0⟩ : String).data = '/' :: c0 :: t0 from rfl, htr]
        simp
      · rw [hres2]
        unfold IsCleanTarPath
        rw [cleanTarPath_eq,
          show (⟨'/' :: c0 :: t0⟩ : String).data = '/' :: c0 :: t0 from rfl, htr]
        simp
    | true =>
      have hres2 : CleanTarPath x true = ⟨('/' :: c0 :: t0) ++ ['/']⟩ := by
        rw [hres, hsuf']
        simp
      have htr : dropTrail (dropLead (('/' :: c0 :: t0) ++ ['/'])) = c0 :: t0 :=
        trim_wrapped_dir _ hhead hlast
      refine ⟨?_, ?_, ?_, ?_⟩
      · rw [hres2]
        rfl
      · intro _
        rw [hres2]
        exact List.getLast?_concat _
      · rw [hres2, cleanTarPath_eq,
          show (⟨('/' :: c0 :: t0) ++ ['/']⟩ : String).data =
            ('/' :: c0 :: t0) ++ ['/'] from rfl, htr, hsuf']
        simp
      · rw [hres2]
        unfold IsCleanTarPath
        rw [cleanTarPath_eq,
          show (⟨('/' :: c0 :: t0) ++ ['/']⟩ : String).data =
            ('/' :: c0 :: t0) ++ ['/'] from rfl, htr, hsuf']
        simp

end TarPath

namespace OIDC

/-- C9: for an ID token whose signature verifies and whose claims unmarshal
with email_verified = false, and with IgnoreEmailVerified = false,
`validateIDToken` returns nil for the token and nil for the claims — but also
a nil error: the guard at oidc.go:389 wraps the function-scoped `err` from
`verifier.Verify`, which is nil on this path, so under the errors package's
pkg/errors semantics the "email_verified claim was false" error is lost and
the caller goes on to dereference the nil claims. -/
theorem validateIDToken_unverified_email_nil_error :
    validateIDToken (.ok ())
      (.ok { email := "user@example.com", emailVerified := false, groups := [] })
      false = (none, none, none) := rfl

end OIDC

namespace Chain

theorem jobAt_updFrom (f : Nat → JobRec → JobRec) (c : JobChain) (k : Nat)
    (hk : k < c.jobs.length) :
    jobAt ⟨updFrom f 0 c.jobs⟩ k = f k (jobAt c k) := by
  show ((updFrom f 0 c.jobs)[k]?).getD default = f k ((c.jobs[k]?).getD default)
  rw [updFrom_getElem?_zero, jobAt_of_lt c k hk]
  simp [jobAt]

/-- Commands of the recovered-datums scenario of C2 (TestRecoveredDatums):
jobs a b / a b c / a b c d over an empty base, each iterator drained, then
`Succeed job1 {a, b}` and `Succeed job2 {a, c}`. -/
def c2Cmds : List Cmd :=
  [Cmd.start ["a", "b"], Cmd.start ["a", "b", "c"], Cmd.start ["a", "b", "c", "d"],
   Cmd.next 1 false, Cmd.next 1 false, Cmd.next 2 false, Cmd.next 3 false,
   Cmd.succeed 1 {"a", "b"}, Cmd.next 2 false, Cmd.next 2 false,
   Cmd.succeed 2 {"a", "c"}, Cmd.next 3 false, Cmd.next 3 false]

/-- Commands of the C2 counterexample: jobs a b / b c over an empty base
(TestCascadeSuccess prefix); job1 succeeds with no recovered datums, after
which iterator 2 still hands out the shared datum b. -/
def c2cCmds : List Cmd :=
  [Cmd.start ["a", "b"], Cmd.start ["b", "c"],
   Cmd.next 1 false, Cmd.next 1 false, Cmd.next 2 false,
   Cmd.succeed 1 ∅, Cmd.next 2 false]

/-- C2 counterexample: after `Succeed job1 ∅`, the live descendant job2 hands
out b even though b lies in job1's datum set minus the (empty) recovered set —
the claim's "shared datums in a.allDatums minus recovered are never handed out
by j" fails for a non-additive descendant, which reprocesses shared datums
itself (matching TestSuccess and TestCascadeSuccess in src/unnamed/part_001). -/
theorem succeed_shared_datum_reyield_cex :
    "b" ∈ (jobAt (runCmds (mkChain ∅) c2cCmds) 1).allDatums ∧
    (jobAt (runCmds (mkChain ∅) c2cCmds) 1).successDatums =
      some ({"a", "b"} : DatumSet) ∧
    (jobAt (runCmds (mkChain ∅) c2cCmds) 2).trace = ["c", "b"] := by decide

/-- C2 (amended): `Succeed a recovered` moves, in every live descendant
tracking `a` as ancestor, exactly the descendant's ancestor-covered datums
that `a` reports as recovered into its yielding set (and drops `a`); those
datums are subsequently handed out, while covered datums outside `recovered`
stay covered.  Concretely, for jobs a b / a b c / a b c d over an empty base,
`Succeed job1 {a, b}` makes iterator 2 additionally yield exactly a, b, and
`Succeed job2 {a, c}` makes iterator 3 additionally yield exactly a, c. -/
theorem recovered_datums_propagation :
    (∀ (c : JobChain) (a k : Nat) (recovered : DatumSet),
        k < c.jobs.length → (jobAt c k).finished = false → k ≠ a →
        a ∈ (jobAt c k).ancestors →
        (jobAt (succeedApply c a recovered) k).yielding =
          (jobAt c k).yielding ∪ ((jobAt c k).covered ∩ recovered) ∧
        (jobAt (succeedApply c a recovered) k).covered =
          (jobAt c k).covered \ ((jobAt c k).covered ∩ recovered) ∧
        a ∉ (jobAt (succeedApply c a recovered) k).ancestors) ∧
    ((jobAt (runCmds (mkChain ∅) c2Cmds) 2).trace = ["c", "a", "b"] ∧
     (nextOp (runCmds (mkChain ∅) c2Cmds) 2 false).1 = NextRes.eos ∧
     (jobAt (runCmds (mkChain ∅) c2Cmds) 3).trace = ["d", "a", "c"] ∧
     (nextOp (runCmds (mkChain ∅) c2Cmds) 3 false).1 = NextRes.eos) := by
  constructor
  · intro c a k recovered hk hfk hka hanc
    have hsa : succeedApply c a recovered =
        ⟨updFrom (propagateSucceed a recovered) 0 c.jobs⟩ := rfl
    rw [hsa, jobAt_updFrom _ c k hk]
    unfold propagateSucceed
    rw [if_neg hka, if_pos ⟨hfk, hanc⟩]
    exact ⟨rfl, rfl, Finset.not_mem_erase a _⟩
  · exact ⟨by decide, by decide, by decide, by decide⟩

/-- Mid-state used by the C2 witness: jobs a b / a b c admitted over an empty
base, both iterators drained of their immediately available datums. -/
def c2wState : JobChain :=
  runCmds (mkChain ∅)
    [Cmd.start ["a", "b"], Cmd.start ["a", "b", "c"],
     Cmd.next 1 false, Cmd.next 1 false, Cmd.next 2 false]

/-- Witness for the C2 theorem's general part at a concrete state. -/
theorem recovered_datums_propagation_witness :
    (2 < c2wState.jobs.length ∧ (jobAt c2wState 2).finished = false ∧
      (2 : Nat) ≠ 1 ∧ 1 ∈ (jobAt c2wState 2).ancestors) ∧
    ((jobAt (succeedApply c2wState 1 {"a", "b"}) 2).yielding =
      (jobAt c2wState 2).yielding ∪ ((jobAt c2wState 2).covered ∩ {"a", "b"}) ∧
     (jobAt (succeedApply c2wState 1 {"a", "b"}) 2).covered =
      (jobAt c2wState 2).covered \ ((jobAt c2wState 2).covered ∩ {"a", "b"}) ∧
     1 ∉ (jobAt (succeedApply c2wState 1 {"a", "b"}) 2).ancestors) :=
  ⟨⟨by decide, by decide, by decide, by decide⟩,
   recovered_datums_propagation.1 c2wState 1 2 {"a", "b"} (by decide) (by decide)
     (by decide) (by decide)⟩

/-- Commands of the cascade-fail scenario of C3 (TestCascadeFail): jobs
a b / a b c / a b c d over an empty base, iterators drained, then
`Succeed job1 ∅`, `Fail job2`, then iterator 3 pulled once more. -/
def c3Cmds : List Cmd :=
  [Cmd.start ["a", "b"], Cmd.start ["a", "b", "c"], Cmd.start ["a", "b", "c", "d"],
   Cmd.next 1 false, Cmd.next 1 false, Cmd.next 2 false, Cmd.next 3 false,
   Cmd.succeed 1 ∅, Cmd.fail 2, Cmd.next 3 false]

/-- C3: in the cascade-fail scenario, after `Succeed job1 ∅` and `Fail job2`,
job 3's iterator has handed out exactly d (its own novel datum, first) and
then c — and nothing else: a and b, covered by job 1's success, are never
re-yielded, and the iterator then reports end of stream. -/
theorem cascade_fail_yields_only_new :
    (jobAt (runCmds (mkChain ∅) c3Cmds) 3).trace = ["d", "c"] ∧
    (nextOp (runCmds (mkChain ∅) c3Cmds) 3 false).1 = NextRes.eos ∧
    "a" ∉ (jobAt (runCmds (mkChain ∅) c3Cmds) 3).trace ∧
    "b" ∉ (jobAt (runCmds (mkChain ∅) c3Cmds) 3).trace := by decide

/-- State used by the C4 witness and counterexample: the cascade-fail scenario
right before `Fail job2` (jobs a b / a b c / a b c d drained, job1 succeeded). -/
def c4wState : JobChain :=
  runCmds (mkChain ∅)
    [Cmd.start ["a", "b"], Cmd.start ["a", "b", "c"], Cmd.start ["a", "b", "c", "d"],
     Cmd.next 1 false, Cmd.next 1 false, Cmd.next 2 false, Cmd.next 3 false,
     Cmd.succeed 1 ∅]

/-- C4 counterexample: in the cascade-fail scenario, `Fail job2` does not move
all of job3.allDatums ∩ job2.allDatums = a b c into job 3's yielding set —
only c (job 2's own work) moves; a and b stay covered by job 1's success
(matching TestCascadeFail, where iterator 3 yields only c afterwards). -/
theorem fail_moves_all_shared_cex :
    2 ∈ (jobAt c4wState 3).ancestors ∧
    (jobAt c4wState 3).allDatums ∩ (jobAt c4wState 2).allDatums =
      ({"a", "b", "c"} : DatumSet) ∧
    "a" ∉ (jobAt (failApply c4wState 2) 3).yielding ∧
    "b" ∉ (jobAt (failApply c4wState 2) 3).yielding ∧
    (jobAt (failApply c4wState 2) 3).yielding = {"c"} := by decide

/-- C4 (amended): when a live job `a` fails, every live descendant `k`
tracking `a` as ancestor immediately takes over only the shared datums that
`a` was itself responsible for producing — its covered datums among
`a.yielding ∪ a.yielded` (not datums covered by older finished-succeeded
ancestors) — moving them from covered to yielding, and `a` is dropped from
`k`'s ancestors while `a` is marked finished with no success datums. -/
theorem fail_moves_ancestor_selfwork (c : JobChain) (a k : Nat)
    (hlen : a < c.jobs.length) (hfa : (jobAt c a).finished = false)
    (hself : a ∉ (jobAt c a).ancestors)
    (hk : k < c.jobs.length) (hfk : (jobAt c k).finished = false)
    (hka : k ≠ a) (hanc : a ∈ (jobAt c k).ancestors) :
    failOp c a = .ok (failApply c a) ∧
    (jobAt (failApply c a) k).yielding =
      (jobAt c k).yielding ∪
        ((jobAt c k).covered ∩ ((jobAt c a).yielding ∪ (jobAt c a).yielded)) ∧
    (jobAt (failApply c a) k).covered =
      (jobAt c k).covered \
        ((jobAt c k).covered ∩ ((jobAt c a).yielding ∪ (jobAt c a).yielded)) ∧
    a ∉ (jobAt (failApply c a) k).ancestors ∧
    (jobAt (failApply c a) a).finished = true ∧
    (jobAt (failApply c a) a).successDatums = none := by
  have hfo : failOp c a = .ok (failApply c a) := by simp [failOp, hlen, hfa]
  have hfa2 : failApply c a =
      ⟨updFrom (propagateFail a ((jobAt c a).yielding ∪ (jobAt c a).yielded)
        (jobAt c a).ancestors) 0 c.jobs⟩ := rfl
  refine ⟨hfo, ?_, ?_, ?_, ?_, ?_⟩
  · rw [hfa2, jobAt_updFrom _ c k hk]
    unfold propagateFail
    rw [if_neg hka, if_pos ⟨hfk, hanc⟩]
  · rw [hfa2, jobAt_updFrom _ c k hk]
    unfold propagateFail
    rw [if_neg hka, if_pos ⟨hfk, hanc⟩]
  · rw [hfa2, jobAt_updFrom _ c k hk]
    unfold propagateFail
    rw [if_neg hka, if_pos ⟨hfk, hanc⟩]
    intro hmem
    rcases Finset.mem_union.mp hmem with hm | hm
    · exact absurd hm (Finset.not_mem_erase a _)
    · exact hself hm
  · rw [hfa2, jobAt_updFrom _ c a hlen]
    unfold propagateFail
    rw [if_pos rfl]
  · rw [hfa2, jobAt_updFrom _ c a hlen]
    unfold propagateFail
    rw [if_pos rfl]

/-- Witness for the C4 theorem: `Fail job2` from the cascade-fail mid-state. -/
theorem fail_moves_ancestor_selfwork_witness :
    (2 < c4wState.jobs.length ∧ (jobAt c4wState 2).finished = false ∧
     2 ∉ (jobAt c4wState 2).ancestors ∧ 3 < c4wState.jobs.length ∧
     (jobAt c4wState 3).finished = false ∧ (3 : Nat) ≠ 2 ∧
     2 ∈ (jobAt c4wState 3).ancestors) ∧
    (failOp c4wState 2 = .ok (failApply c4wState 2) ∧
     (jobAt (failApply c4wState 2) 3).yielding =
       (jobAt c4wState 3).yielding ∪
         ((jobAt c4wState 3).covered ∩
           ((jobAt c4wState 2).yielding ∪ (jobAt c4wState 2).yielded)) ∧
     (jobAt (failApply c4wState 2) 3).covered =
       (jobAt c4wState 3).covered \
         ((jobAt c4wState 3).covered ∩
           ((jobAt c4wState 2).yielding ∪ (jobAt c4wState 2).yielded)) ∧
     2 ∉ (jobAt (failApply c4wState 2) 3).ancestors ∧
     (jobAt (failApply c4wState 2) 2).finished = true ∧
     (jobAt (failApply c4wState 2) 2).successDatums = none) :=
  ⟨⟨by decide, by decide, by decide, by decide, by decide, by decide, by decide⟩,
   fail_moves_ancestor_selfwork c4wState 2 3 (by decide) (by decide) (by decide)
     (by decide) (by decide) (by decide) (by decide)⟩

/-- Commands of the subtractive-on-base scenario of C5
(TestSubtractiveOnBase); the `Next` calls use an already-fired cancellation
token, so they succeed only because no blocking is needed. -/
def c5Cmds : List Cmd :=
  [Cmd.start ["a", "c"], Cmd.next 1 true, Cmd.next 1 true]

/-- C5: over base a b c, a single admitted job declaring a, c has its
iterator hand out exactly a then c without blocking (the fired cancellation
token never fires the Canceled path) and then report end of stream, even
though both datums are members of the base set. -/
theorem subtractive_on_base_yields_all :
    (jobAt (runCmds (mkChain {"a", "b", "c"}) c5Cmds) 1).trace = ["a", "c"] ∧
    (nextOp (runCmds (mkChain {"a", "b", "c"}) c5Cmds) 1 false).1 =
      NextRes.eos ∧
    "a" ∈ (jobAt (runCmds (mkChain {"a", "b", "c"}) c5Cmds) 0).allDatums ∧
    "c" ∈ (jobAt (runCmds (mkChain {"a", "b", "c"}) c5Cmds) 0).allDatums := by
  decide

end Chain

namespace Chain

/-- State of the C6 counterexample: base a b c with a single job declaring
a, c (TestSubtractiveOnBase admission). -/
def c6cState : JobChain := startJob (mkChain {"a", "b", "c"}) ["a", "c"]

/-- C6 counterexample: the admitted job a, c over base a b c starts with
yielding = a c, so the base datum a is initially in the yielding set, and the
claimed candidate rule allDatums minus baseDatums (which would give the empty
set) does not describe the initial yielding set. -/
theorem initial_yielding_from_base_cex :
    "a" ∈ (jobAt c6cState 0).allDatums ∧
    "a" ∈ (jobAt c6cState 1).yielding ∧
    (jobAt c6cState 1).yielding ≠
      (jobAt c6cState 1).allDatums \ (jobAt c6cState 0).allDatums := by decide

/-- C6 (amended): the subtraction applies only when the new job is an
additive extension of its parent (the youngest prior job, or the base
sentinel whose datum set is baseDatums): then its initial yielding set is
allDatums minus the parent's datums and the remainder is counted as covered;
otherwise the job must reprocess everything: its initial yielding set is all
of allDatums (base datums included) and nothing is covered. -/
theorem start_initial_yielding (c : JobChain) (inputs : List Datum) :
    (jobAt (startJob c inputs) c.jobs.length).yielding =
      (if (jobAt c (c.jobs.length - 1)).allDatums ⊆ inputs.toFinset then
        inputs.toFinset \ (jobAt c (c.jobs.length - 1)).allDatums
      else inputs.toFinset) ∧
    (jobAt (startJob c inputs) c.jobs.length).covered =
      (if (jobAt c (c.jobs.length - 1)).allDatums ⊆ inputs.toFinset then
        inputs.toFinset ∩ (jobAt c (c.jobs.length - 1)).allDatums
      else ∅) := by
  have hj : jobAt (startJob c inputs) c.jobs.length = newJobOf c inputs := by
    show ((c.jobs ++ [newJobOf c inputs])[c.jobs.length]?).getD default =
      newJobOf c inputs
    rw [List.getElem?_append_right (le_refl c.jobs.length)]
    simp
  rw [hj]
  by_cases hsub : (jobAt c (c.jobs.length - 1)).allDatums ⊆ inputs.toFinset
  · constructor <;> simp [newJobOf, hsub]
  · constructor <;> simp [newJobOf, hsub]

/-- State of the C7 witness: a single job a, b admitted over an empty base,
iterator not drained (TestEarlySuccess / TestEarlyFail). -/
def c7wState : JobChain := startJob (mkChain ∅) ["a", "b"]

/-- C7: calling `Succeed` on an unfinished job whose remaining work has not
been fully handed out (yielding nonempty, or handed-out plus ancestor-covered
datums not yet exhausting allDatums) returns the ItemsRemaining error for any
recovered set and leaves the chain — hence the job — unchanged, while `Fail`
on the same job at the same point succeeds. -/
theorem early_succeed_items_remaining (c : JobChain) (j : Nat)
    (hlen : j < c.jobs.length) (hfin : (jobAt c j).finished = false)
    (hrem : (jobAt c j).yielding ≠ ∅ ∨
      (jobAt c j).yielded ∪ (jobAt c j).covered ≠ (jobAt c j).allDatums) :
    (∀ recovered, succeedOp c j recovered = .error ChainErr.itemsRemaining ∧
      applyCmd c (Cmd.succeed j recovered) = c) ∧
    failOp c j = .ok (failApply c j) := by
  constructor
  · intro recovered
    have hs : succeedOp c j recovered = .error ChainErr.itemsRemaining := by
      simp [succeedOp, hlen, hfin, hrem]
    exact ⟨hs, by simp [applyCmd, hs]⟩
  · simp [failOp, hlen, hfin]

/-- Witness for the C7 theorem at the TestEarlySuccess state. -/
theorem early_succeed_items_remaining_witness :
    (1 < c7wState.jobs.length ∧ (jobAt c7wState 1).finished = false ∧
     ((jobAt c7wState 1).yielding ≠ ∅ ∨
      (jobAt c7wState 1).yielded ∪ (jobAt c7wState 1).covered ≠
        (jobAt c7wState 1).allDatums)) ∧
    (succeedOp c7wState 1 ∅ = .error ChainErr.itemsRemaining ∧
     applyCmd c7wState (Cmd.succeed 1 ∅) = c7wState) ∧
    failOp c7wState 1 = .ok (failApply c7wState 1) :=
  ⟨⟨by decide, by decide, by decide⟩,
   (early_succeed_items_remaining c7wState 1 (by decide) (by decide)
      (by decide)).1 ∅,
   (early_succeed_items_remaining c7wState 1 (by decide) (by decide)
      (by decide)).2⟩

/-- State of the C8 counterexample: a single job a, b admitted over an empty
base, so datums are immediately available. -/
def c8cState : JobChain := startJob (mkChain ∅) ["a", "b"]

/-- C8 counterexample: with a fired cancellation token but an available
datum, `Next` hands the datum out (returning it, not Canceled) and moves it
into yielded — matching `requireIteratorContentsNonBlocking` and
`superviseTestJobWithError` in src/unnamed/part_001, which require `Next`
with a canceled context to keep returning datums while some are available. -/
theorem next_canceled_fired_token_cex :
    (nextOp c8cState 1 true).1 = NextRes.yield "a" ∧
    (nextOp c8cState 1 true).1 ≠ NextRes.canceled ∧
    (jobAt (nextOp c8cState 1 true).2 1).yielded ≠ (jobAt c8cState 1).yielded ∧
    "a" ∈ (jobAt (nextOp c8cState 1 true).2 1).yielded := by decide

/-- C8 (amended): `Next` with a fired cancellation token returns
(false, Canceled) and leaves the chain — in particular the iterator's yield
state — unchanged exactly when the call would otherwise block: no datum is
currently available and the unfinished job still has live ancestors.  When a
datum is available, `Next` hands it out even though the token has fired. -/
theorem next_canceled_only_when_blocked (c : JobChain) (j : Nat)
    (hlen : j < c.jobs.length) (hfin : (jobAt c j).finished = false)
    (hav : availOf c (jobAt c j) = ∅) (hanc : (jobAt c j).ancestors ≠ ∅) :
    (nextOp c j true).1 = NextRes.canceled ∧ (nextOp c j true).2 = c := by
  rw [nextOp_canceled c j hlen hfin hav hanc]
  exact ⟨rfl, rfl⟩

/-- State of the C8 witness: job a then additive job a, b; iterator 2 drained
of its novel datum b, now blocked on the live ancestor job 1. -/
def c8wState : JobChain :=
  runCmds (mkChain ∅) [Cmd.start ["a"], Cmd.start ["a", "b"], Cmd.next 2 true]

/-- Witness for the C8 theorem at a concrete blocked state. -/
theorem next_canceled_only_when_blocked_witness :
    (2 < c8wState.jobs.length ∧ (jobAt c8wState 2).finished = false ∧
     availOf c8wState (jobAt c8wState 2) = ∅ ∧
     (jobAt c8wState 2).ancestors ≠ ∅) ∧
    (nextOp c8wState 2 true).1 = NextRes.canceled ∧
    (nextOp c8wState 2 true).2 = c8wState :=
  ⟨⟨by decide, by decide, by decide, by decide⟩,
   (next_canceled_only_when_blocked c8wState 2 (by decide) (by decide)
      (by decide) (by decide)).1,
   (next_canceled_only_when_blocked c8wState 2 (by decide) (by decide)
      (by decide) (by decide)).2⟩

end Chain
